import Mathlib

/-!
Verification of `sdks/python/apache_beam/io/avroio.py` against its
specification.  The Python module is shallowly embedded: byte streams are
`List Nat` with an explicit position, Python `int` is `Int`, fallible code
returns `Except String`, and the unbounded `while` loop of the sync-marker
scanner takes explicit fuel (`none` = the loop has not finished).
-/

set_option maxHeartbeats 1000000

namespace Avroio

/-- Buffer size of the scanner (`buf_size = 10000` in
`_AvroUtils.advance_file_past_next_sync_marker`). -/
def bufSize : Nat := 10000

/-- A seekable byte stream: fixed contents plus a current position.  Models
the file object `f` (supporting `read`, `tell` and relative `seek`). -/
structure SStream where
  data : List Nat
  pos : Nat
deriving DecidableEq

/-- `f.read(n)`: return up to `n` bytes from the current position and advance
the position by the number of bytes actually returned. -/
def sread (s : SStream) (n : Nat) : List Nat × SStream :=
  let chunk := (s.data.drop s.pos).take n
  (chunk, ⟨s.data, s.pos + chunk.length⟩)

/-- `data.find(sync_marker)` on byte strings: index of the leftmost
occurrence of `marker` as a contiguous run inside `chunk`; `none` when
absent (Python returns `-1`). -/
def findSub (marker : List Nat) : List Nat → Option Nat
  | [] => if marker.isEmpty then some 0 else none
  | x :: xs => if marker.isPrefixOf (x :: xs) then some 0 else (findSub marker xs).map (· + 1)

/-- The `while data:` loop of `_AvroUtils.advance_file_past_next_sync_marker`,
entered with the most recent chunk read and the stream after that read.
On a hit at chunk index `r` the stream is seeked back by
`len(data) - pos - len(sync_marker)` so that it ends up just past the
marker occurrence.  On a miss, if `tell() >= len(sync_marker)` the stream
backtracks `len(sync_marker) - 1` bytes (guard against an occurrence
straddling two reads) and the next chunk is read.  `fuel` bounds the number
of iterations; `none` means the loop did not finish within `fuel` steps
(the Python loop has no termination guarantee). -/
def advanceLoop (marker : List Nat) : Nat → SStream → List Nat → Option (Bool × SStream)
  | 0, _, _ => none
  | fuel + 1, s, chunk =>
    if chunk.isEmpty then some (false, s)
    else
      match findSub marker chunk with
      | some r => some (true, ⟨s.data, s.pos - (chunk.length - r - marker.length)⟩)
      | none =>
        let s1 : SStream := if marker.length ≤ s.pos then ⟨s.data, s.pos - (marker.length - 1)⟩ else s
        advanceLoop marker fuel (sread s1 bufSize).2 (sread s1 bufSize).1

/-- `_AvroUtils.advance_file_past_next_sync_marker(f, sync_marker)`: read a
first chunk, then run the scan loop.  Returns the decision together with the
final stream; the Python function returns `True` after seeking just past a
found occurrence and falls off the end (the falsy `None`, modelled `false`)
on an empty read. -/
def advance_file_past_next_sync_marker (marker : List Nat) (fuel : Nat) (s : SStream) :
    Option (Bool × SStream) :=
  advanceLoop marker fuel (sread s bufSize).2 (sread s bufSize).1

theorem isPrefixOf_iff_take :
    ∀ (m l : List Nat), m.isPrefixOf l = true ↔ l.take m.length = m
  | [], l => by cases l <;> simp [List.isPrefixOf]
  | a :: as, [] => by
    constructor
    · intro h; exact absurd h (by simp [show (a :: as).isPrefixOf ([] : List Nat) = false from rfl])
    · intro h; simp at h
  | a :: as, b :: bs => by
    rw [show (a :: as).isPrefixOf (b :: bs) = (a == b && as.isPrefixOf bs) from rfl]
    simp only [Bool.and_eq_true, beq_iff_eq, List.length_cons, List.take_succ_cons,
      List.cons.injEq]
    rw [isPrefixOf_iff_take as bs]
    exact ⟨fun ⟨h1, h2⟩ => ⟨h1.symm, h2⟩, fun ⟨h1, h2⟩ => ⟨h1.symm, h2⟩⟩

theorem length_le_of_hit {d m : List Nat} {q : Nat} (hm : 1 ≤ m.length)
    (h : m.isPrefixOf (d.drop q) = true) : q + m.length ≤ d.length := by
  rw [isPrefixOf_iff_take] at h
  have hlen := congrArg List.length h
  simp only [List.length_take, List.length_drop] at hlen
  omega

theorem hit_in_take {d m : List Nat} (hm : 1 ≤ m.length) (cs k i : Nat) :
    m.isPrefixOf (((d.drop cs).take k).drop i) = true ↔
      (m.isPrefixOf (d.drop (cs + i)) = true ∧ i + m.length ≤ k) := by
  rw [isPrefixOf_iff_take, isPrefixOf_iff_take, List.drop_take, List.drop_drop,
    List.take_take]
  by_cases hk : i + m.length ≤ k
  · rw [show min m.length (k - i) = m.length by omega]
    simp [hk]
  · constructor
    · intro he
      have hlen := congrArg List.length he
      simp only [List.length_take, List.length_drop] at hlen
      omega
    · intro ⟨_, h2⟩; omega

theorem findSub_none_of {m : List Nat} (hm : 1 ≤ m.length) :
    ∀ (c : List Nat), (∀ j, m.isPrefixOf (c.drop j) = false) → findSub m c = none := by
  intro c
  induction c with
  | nil =>
    intro _
    match m, hm with
    | a :: as, _ => rfl
  | cons x xs ih =>
    intro h
    rw [findSub, if_neg (Bool.eq_false_iff.mp
      (show m.isPrefixOf (x :: xs) = false from h 0)), ih fun j => h (j + 1)]
    rfl

theorem findSub_some_of {m : List Nat} (hm : 1 ≤ m.length) :
    ∀ (c : List Nat) (r : Nat), m.isPrefixOf (c.drop r) = true →
      (∀ j, j < r → m.isPrefixOf (c.drop j) = false) → findSub m c = some r := by
  intro c
  induction c with
  | nil =>
    intro r hr _
    rw [List.drop_nil] at hr
    match m, hm with
    | a :: as, _ => exact absurd hr (by simp [show (a :: as).isPrefixOf ([] : List Nat) = false from rfl])
  | cons x xs ih =>
    intro r hr hmin
    match r with
    | 0 => rw [findSub, if_pos (by simpa using hr)]
    | r' + 1 =>
      rw [findSub, if_neg (Bool.eq_false_iff.mp
        (show m.isPrefixOf (x :: xs) = false from hmin 0 (by omega))),
        ih r' hr fun j hj => hmin (j + 1) (by omega)]
      rfl

def firstMatchAux (d m : List Nat) : Nat → Nat → Option Nat
  | _, 0 => none
  | q, n + 1 => if m.isPrefixOf (d.drop q) = true then some q else firstMatchAux d m (q + 1) n

/-- Position of the first complete occurrence of `m` in `d` starting at or
after position `p`, if any. -/
def firstMatch (d m : List Nat) (p : Nat) : Option Nat :=
  firstMatchAux d m p (d.length + 1 - p)

theorem firstMatchAux_some {d m : List Nat} :
    ∀ (n q r : Nat), firstMatchAux d m q n = some r →
      q ≤ r ∧ m.isPrefixOf (d.drop r) = true ∧
        ∀ j, q ≤ j → j < r → m.isPrefixOf (d.drop j) = false := by
  intro n
  induction n with
  | zero => intro q r h; exact absurd h (by rw [firstMatchAux]; simp)
  | succ k ih =>
    intro q r h
    rw [firstMatchAux] at h
    split at h
    · rename_i hq
      cases h
      exact ⟨le_rfl, hq, fun j h1 h2 => absurd (lt_of_lt_of_le h2 h1) (lt_irrefl j)⟩
    · rename_i hq
      obtain ⟨h1, h2, h3⟩ := ih (q + 1) r h
      refine ⟨by omega, h2, fun j hj1 hj2 => ?_⟩
      rcases Nat.eq_or_lt_of_le hj1 with he | hl
      · rw [← he]; exact Bool.eq_false_iff.mpr hq
      · exact h3 j hl hj2

theorem firstMatchAux_of_hit {d m : List Nat} :
    ∀ (n q r : Nat), q ≤ r → r < q + n → m.isPrefixOf (d.drop r) = true →
      ∃ r', firstMatchAux d m q n = some r' := by
  intro n
  induction n with
  | zero => intro q r h1 h2 _; omega
  | succ k ih =>
    intro q r h1 h2 hr
    rw [firstMatchAux]
    by_cases hq : m.isPrefixOf (d.drop q) = true
    · exact ⟨q, by rw [if_pos hq]⟩
    · have hne : q ≠ r := fun he => hq (he ▸ hr)
      obtain ⟨r', hr'⟩ := ih (q + 1) r (by omega) (by omega) hr
      exact ⟨r', by rw [if_neg hq]; exact hr'⟩

theorem firstMatch_found {d m : List Nat} {p q : Nat} (hm : 1 ≤ m.length)
    (hpq : p ≤ q) (hq : m.isPrefixOf (d.drop q) = true) :
    ∃ qf, firstMatch d m p = some qf ∧ p ≤ qf ∧ qf ≤ q ∧
      m.isPrefixOf (d.drop qf) = true ∧
      ∀ j, p ≤ j → j < qf → m.isPrefixOf (d.drop j) = false := by
  have hqlen : q + m.length ≤ d.length := length_le_of_hit hm hq
  obtain ⟨r', hr'⟩ := firstMatchAux_of_hit (d.length + 1 - p) p q hpq (by omega) hq
  obtain ⟨h1, h2, h3⟩ := firstMatchAux_some (d.length + 1 - p) p r' hr'
  have hle : r' ≤ q := by
    by_contra hgt
    exact absurd hq (by simp [h3 q hpq (by omega)])
  exact ⟨r', hr', h1, hle, h2, h3⟩

theorem advanceLoop_finds (d m : List Nat) (hm1 : 1 ≤ m.length) (hmb : m.length ≤ bufSize)
    (p₀ qf : Nat) (hq : m.isPrefixOf (d.drop qf) = true) (hp : p₀ ≤ qf)
    (hmin : ∀ j, p₀ ≤ j → j < qf → m.isPrefixOf (d.drop j) = false) :
    ∀ (fuel : Nat) (cs : Nat), p₀ ≤ cs → cs ≤ qf → qf + 1 ≤ cs + fuel →
      advanceLoop m fuel ⟨d, cs + ((d.drop cs).take bufSize).length⟩ ((d.drop cs).take bufSize) =
        some (true, ⟨d, qf + m.length⟩) := by
  have hqd : qf + m.length ≤ d.length := length_le_of_hit hm1 hq
  intro fuel
  induction fuel with
  | zero => intro cs _ h2 h3; omega
  | succ n ih =>
    intro cs h1 h2 h3
    have hcl : ((d.drop cs).take bufSize).length = min bufSize (d.length - cs) := by
      simp [List.length_take, List.length_drop]
    have hclM : m.length ≤ ((d.drop cs).take bufSize).length := by
      rw [hcl]; exact le_min hmb (by omega)
    have hclb : ((d.drop cs).take bufSize).length ≤ bufSize := by
      rw [hcl]; exact min_le_left _ _
    have hcld : ((d.drop cs).take bufSize).length ≤ d.length - cs := by
      rw [hcl]; exact min_le_right _ _
    have hone : ((d.drop cs).take bufSize).length = bufSize ∨
        ((d.drop cs).take bufSize).length = d.length - cs := by
      rcases le_total bufSize (d.length - cs) with hcc | hcc
      · left; rw [hcl]; exact min_eq_left hcc
      · right; rw [hcl]; exact min_eq_right hcc
    have hcne : ((d.drop cs).take bufSize).isEmpty = false := by
      cases hcc : (d.drop cs).take bufSize with
      | nil =>
        rw [hcc] at hclM
        simp only [List.length_nil] at hclM
        omega
      | cons y ys => rfl
    rw [advanceLoop, if_neg (by simp [hcne])]
    by_cases hcase : qf + m.length ≤ cs + ((d.drop cs).take bufSize).length
    · have hfind : findSub m ((d.drop cs).take bufSize) = some (qf - cs) := by
        apply findSub_some_of hm1
        · exact (hit_in_take hm1 cs bufSize (qf - cs)).mpr
            ⟨by rw [show cs + (qf - cs) = qf by omega]; exact hq, by omega⟩
        · intro j hj
          cases hb : m.isPrefixOf ((((d.drop cs).take bufSize)).drop j) with
          | false => rfl
          | true =>
            obtain ⟨hd, _⟩ := (hit_in_take hm1 cs bufSize j).mp hb
            rw [hmin (cs + j) (by omega) (by omega)] at hd
            exact absurd hd (by simp)
      rw [hfind]
      have hpos : cs + ((d.drop cs).take bufSize).length -
          (((d.drop cs).take bufSize).length - (qf - cs) - m.length) = qf + m.length := by
        omega
      simp only [hpos]
    · have hfind : findSub m ((d.drop cs).take bufSize) = none := by
        apply findSub_none_of hm1
        intro j
        cases hb : m.isPrefixOf ((((d.drop cs).take bufSize)).drop j) with
        | false => rfl
        | true =>
          exfalso
          obtain ⟨hd, hjk⟩ := (hit_in_take hm1 cs bufSize j).mp hb
          have hdl : cs + j + m.length ≤ d.length := length_le_of_hit hm1 hd
          have hjc : j + m.length ≤ ((d.drop cs).take bufSize).length := by
            rcases hone with hcc | hcc <;> omega
          rw [hmin (cs + j) (by omega) (by omega)] at hd
          exact absurd hd (by simp)
      rw [hfind]
      simp only []
      rw [if_pos (show m.length ≤ cs + ((d.drop cs).take bufSize).length by omega)]
      have hnext := ih (cs + ((d.drop cs).take bufSize).length - (m.length - 1))
        (by omega) (by omega) (by omega)
      exact hnext

theorem advance_finds (d m : List Nat) (hm1 : 1 ≤ m.length) (hmb : m.length ≤ bufSize)
    (p qf : Nat) (hq : m.isPrefixOf (d.drop qf) = true) (hp : p ≤ qf)
    (hmin : ∀ j, p ≤ j → j < qf → m.isPrefixOf (d.drop j) = false)
    (fuel : Nat) (hfuel : d.length + 1 ≤ fuel) :
    advance_file_past_next_sync_marker m fuel ⟨d, p⟩ = some (true, ⟨d, qf + m.length⟩) := by
  have hqd : qf + m.length ≤ d.length := length_le_of_hit hm1 hq
  exact advanceLoop_finds d m hm1 hmb p qf hq hp hmin fuel p le_rfl hp (by omega)

/-- C5: if the stream's bytes contain a complete occurrence of the sync
marker at or after the current position `p`, then
`advance_file_past_next_sync_marker` (with enough fuel for the loop to run
to completion) returns true and leaves the stream positioned exactly at the
end of the first such occurrence `qf` — no complete occurrence between `p`
and `qf` is skipped, including occurrences straddling two buffered reads. -/
theorem C5_scan_finds_first_marker (d m : List Nat) (p q fuel : Nat)
    (hm1 : 1 ≤ m.length) (hmb : m.length ≤ bufSize) (hpq : p ≤ q)
    (hq : m.isPrefixOf (d.drop q) = true) (hfuel : d.length + 1 ≤ fuel) :
    ∃ qf, p ≤ qf ∧ qf ≤ q ∧ m.isPrefixOf (d.drop qf) = true ∧
      (∀ j, p ≤ j → j < qf → m.isPrefixOf (d.drop j) = false) ∧
      advance_file_past_next_sync_marker m fuel ⟨d, p⟩ = some (true, ⟨d, qf + m.length⟩) := by
  obtain ⟨qf, _, hg1, hg2, hg3, hg4⟩ := firstMatch_found hm1 hpq hq
  exact ⟨qf, hg1, hg2, hg3, hg4, advance_finds d m hm1 hmb p qf hg3 hg1 hg4 fuel hfuel⟩

/-- Witness for C5: a concrete stream `[9, 9, 7, 8, 9]` with marker `[7, 8]`
occurring at position 2, scanned from position 1. -/
theorem C5_scan_finds_first_marker_witness :
    ∃ qf, 1 ≤ qf ∧ qf ≤ 2 ∧ List.isPrefixOf [7, 8] ([9, 9, 7, 8, 9].drop qf) = true ∧
      (∀ j, 1 ≤ j → j < qf → List.isPrefixOf [7, 8] ([9, 9, 7, 8, 9].drop j) = false) ∧
      advance_file_past_next_sync_marker [7, 8] 6 ⟨[9, 9, 7, 8, 9], 1⟩ =
        some (true, ⟨[9, 9, 7, 8, 9], qf + [7, 8].length⟩) :=
  C5_scan_finds_first_marker [9, 9, 7, 8, 9] [7, 8] 1 2 6 (by decide) (by decide) (by decide)
    (by decide) (by decide)

/-- A marker-free 20-byte stream: all zeros. -/
def c6data : List Nat := List.replicate 20 0

/-- A 16-byte sync marker (all ones) that does not occur in `c6data`. -/
def c6marker : List Nat := List.replicate 16 1

theorem c6_loop_aux :
    ∀ n, advanceLoop c6marker n ⟨c6data, 20⟩ ((c6data.drop 5).take bufSize) = none := by
  intro n
  induction n with
  | zero => rfl
  | succ k ih =>
    exact (show advanceLoop c6marker (k + 1) ⟨c6data, 20⟩ ((c6data.drop 5).take bufSize) =
        advanceLoop c6marker k ⟨c6data, 20⟩ ((c6data.drop 5).take bufSize) from rfl).trans ih

/-- C6: the claim says that on a stream whose remaining bytes contain no
occurrence of the sync marker the scanner consumes the stream and returns
false.  On the 20-byte all-zero stream with a 16-byte marker the code
instead loops forever: after the first full read it backtracks 15 bytes and
then re-reads the same final 15 bytes on every iteration, never reaching the
empty read that would end the loop.  Formally: no amount of fuel makes the
loop finish. -/
theorem C6_no_marker_scan_diverges :
    ∀ fuel, advance_file_past_next_sync_marker c6marker fuel ⟨c6data, 0⟩ = none := by
  intro fuel
  match fuel with
  | 0 => rfl
  | n + 1 =>
    exact (show advance_file_past_next_sync_marker c6marker (n + 1) ⟨c6data, 0⟩ =
        advanceLoop c6marker n ⟨c6data, 20⟩ ((c6data.drop 5).take bufSize) from rfl).trans
      (c6_loop_aux n)

/-- One data block of an Avro container file: the bytes preceding the
trailing sync marker (record-count varint, size varint, serialized
payload), plus the records the payload decodes to (abstract `Nat` tokens:
record decoding itself is out of scope). -/
structure AvroBlock where
  payload : List Nat
  records : List Nat

/-- An Avro container file: header bytes (magic and metadata) followed by
the sync marker, then the blocks, each serialized as its payload bytes
followed by the same sync marker. -/
structure AvroFile where
  headerBody : List Nat
  sync : List Nat
  blocks : List AvroBlock

/-- Serialized size of a block (`block.size` in fastavro: the bytes
consumed from the block's start through its trailing sync marker), with
`M` the sync-marker length. -/
def blockSize (M : Nat) (b : AvroBlock) : Nat := b.payload.length + M

/-- Length of the file header, whose last `sync.length` bytes are the sync
marker; its end is the offset of the first block. -/
def AvroFile.headerLen (f : AvroFile) : Nat := f.headerBody.length + f.sync.length

/-- The byte serialization of the file. -/
def AvroFile.fileBytes (f : AvroFile) : List Nat :=
  f.headerBody ++ f.sync ++ f.blocks.flatMap (fun b => b.payload ++ f.sync)

/-- Total length of the serialized file. -/
def AvroFile.fileLen (f : AvroFile) : Nat :=
  f.headerLen + (f.blocks.map (blockSize f.sync.length)).sum

/-- The marker-end offsets from `base` onwards: `base` itself (end of the
previous marker = start of the first block of `bs`) and the end of each
block's trailing marker; the last entry is the end of the byte range. -/
def boundariesFrom (M : Nat) : Nat → List AvroBlock → List Nat
  | base, [] => [base]
  | base, b :: bs => base :: boundariesFrom M (base + blockSize M b) bs

/-- All marker-end offsets of the file: the end of the header's marker
(start of block 0), the end of each block's marker, ending at `fileLen`. -/
def AvroFile.boundaries (f : AvroFile) : List Nat :=
  boundariesFrom f.sync.length f.headerLen f.blocks

/-- Events of the `while range_tracker.try_claim(next_block_start)` loop of
`_FastAvroSource.read_records`: each claim attempt with its outcome, each
yielded record tagged with its block's starting offset, and the case where
`next(blocks)` finds the block iterator exhausted after a successful
claim. -/
inductive Ev where
  | claim (pos : Nat) (accepted : Bool)
  | record (blockOfs : Nat) (r : Nat)
  | iterStop
deriving DecidableEq

/-- The claim/decode/yield loop of `read_records`, starting at byte offset
`pos` with the not-yet-decoded blocks `bs`.  `try_claim(pos)` succeeds iff
`pos < stop` (the `OffsetRangeTracker` semantics); an accepted claim
decodes the next block and yields its records, a rejected claim ends the
iteration. -/
def readLoopTrace (M stop : Nat) : Nat → List AvroBlock → List Ev
  | pos, [] => if pos < stop then [Ev.claim pos true, Ev.iterStop] else [Ev.claim pos false]
  | pos, b :: rest =>
    if pos < stop then
      Ev.claim pos true ::
        (b.records.map (Ev.record pos) ++ readLoopTrace M stop (pos + blockSize M b) rest)
    else [Ev.claim pos false]

/-- The records yielded along a trace, in order. -/
def recsOf (t : List Ev) : List Nat :=
  t.filterMap fun e =>
    match e with
    | Ev.record _ r => some r
    | _ => none

/-- The suffix of the block list whose serialized bytes start at or after
byte offset `pos`; `base` is the offset of the first block of `bs`.  This
models `next(blocks)` decoding from the stream position `pos` (meaningful
when `pos` is a block boundary, which the sync-marker alignment in
`read_records` guarantees on well-formed files). -/
def blocksFrom (M pos : Nat) : Nat → List AvroBlock → List AvroBlock
  | _, [] => []
  | base, b :: bs => if base < pos then blocksFrom M pos (base + blockSize M b) bs else b :: bs

/-- Fuel that always suffices for the sync-marker scan inside
`read_records` (each loop iteration advances the chunk start by at least
one byte while an occurrence lies ahead). -/
def scanFuel (f : AvroFile) : Nat := f.fileBytes.length + 2

/-- `_FastAvroSource.read_records` on the byte range `[start, stop)`: seek
to `max(0, start_offset - len(sync_marker))`, advance past the next sync
marker (the scanner's Boolean result is discarded, as in the source), then
repeatedly offer the next block-start offset to the range tracker and yield
the records of each accepted block.  Returns the yielded records. -/
def read_records (f : AvroFile) (start stop : Nat) : List Nat :=
  match advance_file_past_next_sync_marker f.sync (scanFuel f)
      ⟨f.fileBytes, start - f.sync.length⟩ with
  | none => []
  | some (_, s) =>
    recsOf (readLoopTrace f.sync.length stop s.pos
      (blocksFrom f.sync.length s.pos f.headerLen f.blocks))

theorem readLoop_guard (M stop : Nat) :
    ∀ (bs : List AvroBlock) (pos : Nat),
      (∀ n o r, (readLoopTrace M stop pos bs)[n]? = some (Ev.record o r) →
        ∃ k : Nat, k < n ∧ (readLoopTrace M stop pos bs)[k]? = some (Ev.claim o true)) ∧
      (∀ n p, (readLoopTrace M stop pos bs)[n]? = some (Ev.claim p false) →
        n + 1 = (readLoopTrace M stop pos bs).length) := by
  intro bs
  induction bs with
  | nil =>
    intro pos
    rw [readLoopTrace]
    by_cases hlt : pos < stop
    · rw [if_pos hlt]
      refine ⟨fun n o r h => ?_, fun n p h => ?_⟩
      · match n with
        | 0 => simp at h
        | 1 => simp at h
        | k + 2 => simp at h
      · match n with
        | 0 => simp at h
        | 1 => simp at h
        | k + 2 => simp at h
    · rw [if_neg hlt]
      refine ⟨fun n o r h => ?_, fun n p h => ?_⟩
      · match n with
        | 0 => simp at h
        | k + 1 => simp at h
      · match n with
        | 0 => simp
        | k + 1 => simp at h
  | cons b rest ih =>
    intro pos
    by_cases hlt : pos < stop
    · have htr : readLoopTrace M stop pos (b :: rest) =
          Ev.claim pos true ::
            (b.records.map (Ev.record pos) ++ readLoopTrace M stop (pos + blockSize M b) rest) := by
        rw [readLoopTrace, if_pos hlt]
      obtain ⟨ih1, ih2⟩ := ih (pos + blockSize M b)
      rw [htr]
      refine ⟨fun n o r h => ?_, fun n p h => ?_⟩
      · match n with
        | 0 => simp at h
        | k + 1 =>
          rw [List.getElem?_cons_succ] at h
          by_cases hk : k < (b.records.map (Ev.record pos)).length
          · rw [List.getElem?_append_left hk] at h
            rw [List.getElem?_map] at h
            have ho : o = pos := by
              match hrec : b.records[k]? with
              | some r' => rw [hrec] at h; cases h; rfl
              | none => rw [hrec] at h; cases h
            refine ⟨0, by omega, ?_⟩
            rw [ho, List.getElem?_cons_zero]
          · rw [List.getElem?_append_right (by omega)] at h
            obtain ⟨j, hj1, hj2⟩ := ih1 (k - (b.records.map (Ev.record pos)).length) o r h
            refine ⟨(b.records.map (Ev.record pos)).length + j + 1, by omega, ?_⟩
            rw [show (b.records.map (Ev.record pos)).length + j + 1 =
                ((b.records.map (Ev.record pos)).length + j) + 1 from rfl,
              List.getElem?_cons_succ, List.getElem?_append_right (by omega),
              show (b.records.map (Ev.record pos)).length + j -
                (b.records.map (Ev.record pos)).length = j by omega]
            exact hj2
      · match n with
        | 0 => simp at h
        | k + 1 =>
          rw [List.getElem?_cons_succ] at h
          by_cases hk : k < (b.records.map (Ev.record pos)).length
          · rw [List.getElem?_append_left hk, List.getElem?_map] at h
            match hrec : b.records[k]? with
            | some r' => rw [hrec] at h; cases h
            | none => rw [hrec] at h; cases h
          · rw [List.getElem?_append_right (by omega)] at h
            have hlen := ih2 (k - (b.records.map (Ev.record pos)).length) p h
            simp only [List.length_cons, List.length_append]
            omega
    · rw [readLoopTrace, if_neg hlt]
      refine ⟨fun n o r h => ?_, fun n p h => ?_⟩
      · match n with
        | 0 => simp at h
        | k + 1 => simp at h
      · match n with
        | 0 => simp
        | k + 1 => simp at h

/-- C4: in the claim/decode/yield loop of `read_records`, every yielded
record is preceded in the event trace by an accepted `try_claim` of its
block's starting offset (the offset is offered before the block is
decoded, and no record comes from an unaccepted block), and a rejected
claim is always the final event of the trace: iteration ends there
normally, with no error and no further records. -/
theorem C4_claim_guards_records (M stop pos : Nat) (bs : List AvroBlock) :
    (∀ n o r, (readLoopTrace M stop pos bs)[n]? = some (Ev.record o r) →
      ∃ k : Nat, k < n ∧ (readLoopTrace M stop pos bs)[k]? = some (Ev.claim o true)) ∧
    (∀ n p, (readLoopTrace M stop pos bs)[n]? = some (Ev.claim p false) →
      n + 1 = (readLoopTrace M stop pos bs).length) :=
  readLoop_guard M stop bs pos

/-- Witness for C4 on a one-block file region: the record event at index 1
is guarded by the accepted claim at index 0, and the rejected claim at
index 2 is the final event. -/
theorem C4_claim_guards_records_witness :
    (∃ k : Nat, k < 1 ∧ (readLoopTrace 1 2 0 [⟨[5], [42]⟩])[k]? = some (Ev.claim 0 true)) ∧
      2 + 1 = (readLoopTrace 1 2 0 [⟨[5], [42]⟩]).length :=
  ⟨(C4_claim_guards_records 1 2 0 [⟨[5], [42]⟩]).1 1 0 42 rfl,
    (C4_claim_guards_records 1 2 0 [⟨[5], [42]⟩]).2 2 2 rfl⟩

/-- Well-formedness of a serialized Avro file: the sync marker is nonempty
(16 bytes in the real format), fits in the scanner's buffer, and occurs in
the file's bytes exactly at the designated places — ending at the header
boundary and at each block boundary.  (The format draws a random 16-byte
marker precisely so that spurious occurrences do not arise.) -/
def wellFormed (f : AvroFile) : Prop :=
  0 < f.sync.length ∧ f.sync.length ≤ bufSize ∧
    ∀ q < f.fileBytes.length,
      (f.sync.isPrefixOf (f.fileBytes.drop q) = true ↔ q + f.sync.length ∈ f.boundaries)

instance (f : AvroFile) : Decidable (wellFormed f) := by
  unfold wellFormed
  infer_instance

/-- The least boundary (marker-end offset) at or after `s`, computed over
the block list; `base` is the first boundary considered, and the final
boundary is returned when `s` is beyond all of them. -/
def alignFrom (M s : Nat) : Nat → List AvroBlock → Nat
  | base, [] => base
  | base, b :: bs => if s ≤ base then base else alignFrom M s (base + blockSize M b) bs

/-- The block boundary at which the sync-marker scan of `read_records`
lands when the nominal range start is `s`. -/
def align (f : AvroFile) (s : Nat) : Nat :=
  alignFrom f.sync.length s f.headerLen f.blocks

theorem alignFrom_ge_base (M s : Nat) :
    ∀ (bs : List AvroBlock) (base : Nat), base ≤ alignFrom M s base bs := by
  intro bs
  induction bs with
  | nil => intro base; exact le_rfl
  | cons b rest ih =>
    intro base
    rw [alignFrom]
    by_cases h : s ≤ base
    · rw [if_pos h]
    · rw [if_neg h]
      exact le_trans (by omega) (ih (base + blockSize M b))

theorem alignFrom_mem (M s : Nat) :
    ∀ (bs : List AvroBlock) (base : Nat), alignFrom M s base bs ∈ boundariesFrom M base bs := by
  intro bs
  induction bs with
  | nil => intro base; rw [alignFrom, boundariesFrom]; exact List.mem_singleton.mpr rfl
  | cons b rest ih =>
    intro base
    rw [alignFrom, boundariesFrom]
    by_cases h : s ≤ base
    · rw [if_pos h]; exact List.mem_cons_self _ _
    · rw [if_neg h]; exact List.mem_cons_of_mem _ (ih (base + blockSize M b))

theorem alignFrom_of_le (M s : Nat) (bs : List AvroBlock) (base : Nat) (h : s ≤ base) :
    alignFrom M s base bs = base := by
  cases bs with
  | nil => rfl
  | cons b rest => rw [alignFrom, if_pos h]

theorem alignFrom_ge_s (M s : Nat) :
    ∀ (bs : List AvroBlock) (base : Nat),
      s ≤ base + (bs.map (blockSize M)).sum → s ≤ alignFrom M s base bs := by
  intro bs
  induction bs with
  | nil => intro base h; simpa using h
  | cons b rest ih =>
    intro base h
    rw [alignFrom]
    by_cases hs : s ≤ base
    · rw [if_pos hs]; exact hs
    · rw [if_neg hs]
      apply ih
      simp only [List.map_cons, List.sum_cons] at h
      omega

theorem boundariesFrom_ge (M : Nat) :
    ∀ (bs : List AvroBlock) (base x : Nat), x ∈ boundariesFrom M base bs → base ≤ x := by
  intro bs
  induction bs with
  | nil =>
    intro base x h
    rw [boundariesFrom, List.mem_singleton] at h
    omega
  | cons b rest ih =>
    intro base x h
    rw [boundariesFrom] at h
    rcases List.mem_cons.mp h with he | hm
    · omega
    · exact le_trans (by omega) (ih (base + blockSize M b) x hm)

theorem boundariesFrom_le (M : Nat) :
    ∀ (bs : List AvroBlock) (base x : Nat),
      x ∈ boundariesFrom M base bs → x ≤ base + (bs.map (blockSize M)).sum := by
  intro bs
  induction bs with
  | nil =>
    intro base x h
    rw [boundariesFrom, List.mem_singleton] at h
    simp [h]
  | cons b rest ih =>
    intro base x h
    rw [boundariesFrom] at h
    simp only [List.map_cons, List.sum_cons]
    rcases List.mem_cons.mp h with he | hm
    · omega
    · have := ih (base + blockSize M b) x hm
      omega

theorem alignFrom_least (M s : Nat) :
    ∀ (bs : List AvroBlock) (base x : Nat),
      x ∈ boundariesFrom M base bs → s ≤ x → alignFrom M s base bs ≤ x := by
  intro bs
  induction bs with
  | nil =>
    intro base x h _
    rw [boundariesFrom, List.mem_singleton] at h
    rw [alignFrom]; omega
  | cons b rest ih =>
    intro base x h hsx
    rw [alignFrom]
    by_cases hs : s ≤ base
    · rw [if_pos hs]
      exact boundariesFrom_ge M (b :: rest) base x h
    · rw [if_neg hs]
      rw [boundariesFrom] at h
      rcases List.mem_cons.mp h with he | hm
      · omega
      · exact ih (base + blockSize M b) x hm hsx

theorem flatMap_blocks_length (sync : List Nat) :
    ∀ bs : List AvroBlock,
      (bs.flatMap (fun b => b.payload ++ sync)).length = (bs.map (blockSize sync.length)).sum := by
  intro bs
  induction bs with
  | nil => rfl
  | cons b rest ih =>
    simp only [List.flatMap_cons, List.length_append, List.map_cons, List.sum_cons, ih,
      blockSize]

theorem fileBytes_length (f : AvroFile) : f.fileBytes.length = f.fileLen := by
  rw [AvroFile.fileBytes, AvroFile.fileLen, AvroFile.headerLen]
  simp only [List.length_append, flatMap_blocks_length]

theorem align_ge_s (f : AvroFile) (s : Nat) (hs : s ≤ f.fileLen) : s ≤ align f s :=
  alignFrom_ge_s f.sync.length s f.blocks f.headerLen (by rw [AvroFile.fileLen] at hs; exact hs)

theorem align_le_fileLen (f : AvroFile) (s : Nat) : align f s ≤ f.fileLen := by
  rw [AvroFile.fileLen]
  exact boundariesFrom_le f.sync.length f.blocks f.headerLen _
    (alignFrom_mem f.sync.length s f.blocks f.headerLen)

/-- Under well-formedness, the sync-marker scan started at
`max(0, s - len(sync))` lands exactly at `align f s`, the least block
boundary at or after `s`. -/
theorem scan_lands (f : AvroFile) (hwf : wellFormed f) (s : Nat) (hs : s ≤ f.fileLen) :
    advance_file_past_next_sync_marker f.sync (scanFuel f)
      ⟨f.fileBytes, s - f.sync.length⟩ = some (true, ⟨f.fileBytes, align f s⟩) := by
  obtain ⟨hM, hMb, hocc⟩ := hwf
  have hLlen : f.fileBytes.length = f.fileLen := fileBytes_length f
  have hHM : f.sync.length ≤ f.headerLen := by rw [AvroFile.headerLen]; omega
  have hHL : f.headerLen ≤ f.fileLen := by rw [AvroFile.fileLen]; omega
  have ha_mem : align f s ∈ f.boundaries :=
    alignFrom_mem f.sync.length s f.blocks f.headerLen
  have ha_geH : f.headerLen ≤ align f s :=
    boundariesFrom_ge f.sync.length f.blocks f.headerLen _ ha_mem
  have ha_le : align f s ≤ f.fileLen := align_le_fileLen f s
  have ha_ge_s : s ≤ align f s := align_ge_s f s hs
  have hq : f.sync.isPrefixOf (f.fileBytes.drop (align f s - f.sync.length)) = true := by
    apply (hocc (align f s - f.sync.length) (by omega)).mpr
    rw [show align f s - f.sync.length + f.sync.length = align f s by omega]
    exact ha_mem
  have hmin : ∀ j, s - f.sync.length ≤ j → j < align f s - f.sync.length →
      f.sync.isPrefixOf (f.fileBytes.drop j) = false := by
    intro j hj1 hj2
    cases hb : f.sync.isPrefixOf (f.fileBytes.drop j) with
    | false => rfl
    | true =>
      exfalso
      have hjL : j < f.fileBytes.length := by omega
      have hmem := (hocc j hjL).mp hb
      have h1 : s ≤ j + f.sync.length := by omega
      have h2 : align f s ≤ j + f.sync.length :=
        alignFrom_least f.sync.length s f.blocks f.headerLen _ hmem h1
      omega
  have hland := advance_finds f.fileBytes f.sync hM hMb (s - f.sync.length)
    (align f s - f.sync.length) hq (by omega) hmin (scanFuel f)
    (by rw [scanFuel]; omega)
  rw [show align f s - f.sync.length + f.sync.length = align f s by omega] at hland
  exact hland

/-- The records of the blocks whose starting offset lies in `[s, t)`;
`base` is the offset of the first block of `bs`. -/
def rangeRecsAux (M s t : Nat) : Nat → List AvroBlock → List Nat
  | _, [] => []
  | base, b :: bs =>
    (if s ≤ base ∧ base < t then b.records else []) ++
      rangeRecsAux M s t (base + blockSize M b) bs

theorem recsOf_append (t1 t2 : List Ev) : recsOf (t1 ++ t2) = recsOf t1 ++ recsOf t2 := by
  rw [recsOf, recsOf, recsOf, List.filterMap_append]

theorem recsOf_records_map (rs : List Nat) (pos : Nat) :
    recsOf (rs.map (Ev.record pos)) = rs := by
  induction rs with
  | nil => rfl
  | cons r rest ih =>
    show r :: recsOf (rest.map (Ev.record pos)) = r :: rest
    rw [ih]

theorem rangeRecsAux_nil_of_ge (M s t : Nat) :
    ∀ (bs : List AvroBlock) (base : Nat), t ≤ base → rangeRecsAux M s t base bs = [] := by
  intro bs
  induction bs with
  | nil => intro base _; rfl
  | cons b rest ih =>
    intro base h
    rw [rangeRecsAux, if_neg (by omega), ih (base + blockSize M b) (by omega)]
    rfl

theorem rangeRecsAux_nil_of_le (M s t : Nat) (h : t ≤ s) :
    ∀ (bs : List AvroBlock) (base : Nat), rangeRecsAux M s t base bs = [] := by
  intro bs
  induction bs with
  | nil => intro base; rfl
  | cons b rest ih =>
    intro base
    rw [rangeRecsAux, if_neg (by omega), ih (base + blockSize M b)]
    rfl

theorem blocksFrom_self (M : Nat) :
    ∀ (bs : List AvroBlock) (base : Nat), blocksFrom M base base bs = bs := by
  intro bs base
  cases bs with
  | nil => rfl
  | cons b rest => rw [blocksFrom, if_neg (lt_irrefl base)]

/-- The claim/yield loop started at the boundary `alignFrom M s base bs`
emits exactly the records of the blocks whose start lies in `[s, t)`. -/
theorem loop_eq_range (M : Nat) (hM : 0 < M) (s t : Nat) :
    ∀ (bs : List AvroBlock) (base : Nat),
      recsOf (readLoopTrace M t (alignFrom M s base bs)
        (blocksFrom M (alignFrom M s base bs) base bs)) = rangeRecsAux M s t base bs := by
  intro bs
  induction bs with
  | nil =>
    intro base
    show recsOf (readLoopTrace M t base (blocksFrom M base base [])) = []
    rw [blocksFrom, readLoopTrace]
    by_cases h : base < t
    · rw [if_pos h]; rfl
    · rw [if_neg h]; rfl
  | cons b rest ih =>
    intro base
    by_cases hsb : s ≤ base
    · have ha : alignFrom M s base (b :: rest) = base := by rw [alignFrom, if_pos hsb]
      rw [ha, blocksFrom_self, rangeRecsAux]
      by_cases hbt : base < t
      · rw [readLoopTrace, if_pos hbt, if_pos ⟨hsb, hbt⟩]
        show recsOf (b.records.map (Ev.record base) ++
          readLoopTrace M t (base + blockSize M b) rest) = _
        rw [recsOf_append, recsOf_records_map]
        have hnext := ih (base + blockSize M b)
        rw [alignFrom_of_le M s rest (base + blockSize M b) (by omega),
          blocksFrom_self] at hnext
        rw [hnext]
      · rw [readLoopTrace, if_neg hbt, if_neg (by tauto),
          rangeRecsAux_nil_of_ge M s t rest (base + blockSize M b) (by omega)]
        rfl
    · have hsz : 0 < blockSize M b := by rw [blockSize]; omega
      have ha : alignFrom M s base (b :: rest) =
          alignFrom M s (base + blockSize M b) rest := by rw [alignFrom, if_neg hsb]
      have hbase_lt : base < alignFrom M s (base + blockSize M b) rest :=
        lt_of_lt_of_le (by omega) (alignFrom_ge_base M s rest (base + blockSize M b))
      rw [ha, show blocksFrom M (alignFrom M s (base + blockSize M b) rest) base (b :: rest) =
          blocksFrom M (alignFrom M s (base + blockSize M b) rest)
            (base + blockSize M b) rest by rw [blocksFrom, if_pos hbase_lt],
        ih (base + blockSize M b), rangeRecsAux, if_neg (by tauto)]
      rfl

/-- `rangeRecsAux` over `[s, t)` splits at any intermediate cut `u`. -/
theorem range_split (M s u t : Nat) (hsu : s ≤ u) (hut : u ≤ t) :
    ∀ (bs : List AvroBlock) (base : Nat),
      rangeRecsAux M s t base bs =
        rangeRecsAux M s u base bs ++ rangeRecsAux M u t base bs := by
  intro bs
  induction bs with
  | nil => intro base; rfl
  | cons b rest ih =>
    intro base
    rw [rangeRecsAux, rangeRecsAux, rangeRecsAux, ih (base + blockSize M b)]
    by_cases hbu : base < u
    · rw [show (if u ≤ base ∧ base < t then b.records else []) = [] from if_neg (by omega),
        show (if s ≤ base ∧ base < t then b.records else []) =
          (if s ≤ base ∧ base < u then b.records else []) by
            by_cases hsb : s ≤ base <;> simp [hsb, hbu, lt_of_lt_of_le hbu hut]]
      simp [List.append_assoc]
    · rw [show (if s ≤ base ∧ base < u then b.records else []) = [] from if_neg (by omega),
        show (if s ≤ base ∧ base < t then b.records else []) =
          (if u ≤ base ∧ base < t then b.records else []) by
            simp [show s ≤ base by omega, show u ≤ base by omega],
        rangeRecsAux_nil_of_ge M s u rest (base + blockSize M b) (by omega)]
      simp [List.append_assoc]

/-- The whole-file range `[0, fileLen)` collects every block's records. -/
theorem rangeRecsAux_all (M : Nat) (hM : 0 < M) :
    ∀ (bs : List AvroBlock) (base : Nat),
      rangeRecsAux M 0 (base + (bs.map (blockSize M)).sum) base bs =
        bs.flatMap (fun b => b.records) := by
  intro bs
  induction bs with
  | nil => intro base; rfl
  | cons b rest ih =>
    intro base
    have hsz : 0 < blockSize M b := by rw [blockSize]; omega
    rw [rangeRecsAux, List.flatMap_cons,
      if_pos ⟨Nat.zero_le base, by simp only [List.map_cons, List.sum_cons]; omega⟩]
    congr 1
    have := ih (base + blockSize M b)
    rw [show base + blockSize M b + (rest.map (blockSize M)).sum =
      base + ((b :: rest).map (blockSize M)).sum by
        simp only [List.map_cons, List.sum_cons]; omega] at this
    exact this

/-- Under well-formedness, `read_records` on `[s, t)` yields exactly the
records of the blocks starting in `[s, t)`. -/
theorem read_records_eq_range (f : AvroFile) (hwf : wellFormed f) (s t : Nat)
    (hs : s ≤ f.fileLen) :
    read_records f s t = rangeRecsAux f.sync.length s t f.headerLen f.blocks := by
  rw [read_records, scan_lands f hwf s hs]
  exact loop_eq_range f.sync.length hwf.1 s t f.blocks f.headerLen

/-- The last element of `a :: l`. -/
def lastOf : Nat → List Nat → Nat
  | a, [] => a
  | _, b :: l => lastOf b l

/-- The adjacent pairs of a list of cut points: `[c0, c1, c2, ...]`
becomes the half-open ranges `(c0, c1), (c1, c2), ...`. -/
def adjacentPairs : List Nat → List (Nat × Nat)
  | [] => []
  | [_] => []
  | a :: b :: rest => (a, b) :: adjacentPairs (b :: rest)

theorem chain_le_lastOf :
    ∀ (rest : List Nat) (c : Nat), List.Chain' (· ≤ ·) (c :: rest) → c ≤ lastOf c rest := by
  intro rest
  induction rest with
  | nil => intro c _; exact le_rfl
  | cons d rest' ih =>
    intro c hch
    obtain ⟨hcd, hch'⟩ := List.chain'_cons.mp hch
    exact le_trans hcd (ih d hch')

theorem chain_mem_le_lastOf :
    ∀ (rest : List Nat) (c x : Nat), List.Chain' (· ≤ ·) (c :: rest) →
      x ∈ c :: rest → x ≤ lastOf c rest := by
  intro rest
  induction rest with
  | nil =>
    intro c x _ hx
    rw [List.mem_singleton] at hx
    rw [hx, lastOf]
  | cons d rest' ih =>
    intro c x hch hx
    obtain ⟨hcd, hch'⟩ := List.chain'_cons.mp hch
    rw [show lastOf c (d :: rest') = lastOf d rest' from rfl]
    rcases List.mem_cons.mp hx with he | hm
    · exact le_trans (he ▸ hcd) (chain_le_lastOf rest' d hch')
    · exact ih d x hch' hm

theorem adjacentPairs_mem :
    ∀ (l : List Nat) (p : Nat × Nat), p ∈ adjacentPairs l → p.1 ∈ l ∧ p.2 ∈ l
  | [], p, h => by rw [adjacentPairs] at h; exact absurd h (List.not_mem_nil p)
  | [a], p, h => by rw [adjacentPairs] at h; exact absurd h (List.not_mem_nil p)
  | a :: b :: r, p, h => by
    rw [adjacentPairs] at h
    rcases List.mem_cons.mp h with he | hm
    · rw [he]
      exact ⟨List.mem_cons_self _ _, List.mem_cons_of_mem _ (List.mem_cons_self _ _)⟩
    · have hr := adjacentPairs_mem (b :: r) p hm
      exact ⟨List.mem_cons_of_mem _ hr.1, List.mem_cons_of_mem _ hr.2⟩

theorem flatMap_congr_mem {α β : Type} (l : List α) (F G : α → List β)
    (h : ∀ a ∈ l, F a = G a) : l.flatMap F = l.flatMap G := by
  induction l with
  | nil => rfl
  | cons x xs ih =>
    rw [List.flatMap_cons, List.flatMap_cons, h x (List.mem_cons_self _ _),
      ih fun a ha => h a (List.mem_cons_of_mem _ ha)]

/-- Concatenating `rangeRecsAux` over the adjacent ranges of a monotone
cut list equals `rangeRecsAux` over the full range. -/
theorem fold_ranges (M : Nat) (bs : List AvroBlock) (base : Nat) :
    ∀ (rest : List Nat) (c : Nat), List.Chain' (· ≤ ·) (c :: rest) →
      ((adjacentPairs (c :: rest)).flatMap fun p => rangeRecsAux M p.1 p.2 base bs) =
        rangeRecsAux M c (lastOf c rest) base bs := by
  intro rest
  induction rest with
  | nil =>
    intro c _
    rw [adjacentPairs, lastOf, List.flatMap_nil,
      rangeRecsAux_nil_of_le M c c le_rfl bs base]
  | cons d rest' ih =>
    intro c hch
    obtain ⟨hcd, hch'⟩ := List.chain'_cons.mp hch
    rw [adjacentPairs, List.flatMap_cons, ih d hch',
      show lastOf c (d :: rest') = lastOf d rest' from rfl]
    exact (range_split M c d (lastOf d rest') hcd (chain_le_lastOf rest' d hch') bs base).symm

/-- C1: for a well-formed Avro container file and any partition of its byte
range `[0, fileLen)` into adjacent half-open ranges (given by the monotone
cut list `0 :: rest` ending at `fileLen`), the concatenation in range order
of the records yielded by `read_records` run independently on each range
equals the record sequence obtained by reading the whole file as a single
range — which in turn is exactly the file's full ordered record sequence:
no record is missing and none is duplicated. -/
theorem C1_split_coverage (f : AvroFile) (rest : List Nat) (hwf : wellFormed f)
    (hchain : List.Chain' (· ≤ ·) (0 :: rest)) (hlast : lastOf 0 rest = f.fileLen) :
    ((adjacentPairs (0 :: rest)).flatMap fun p => read_records f p.1 p.2) =
        read_records f 0 f.fileLen ∧
      read_records f 0 f.fileLen = f.blocks.flatMap fun b => b.records := by
  have hall : read_records f 0 f.fileLen =
      f.blocks.flatMap fun b => b.records := by
    rw [read_records_eq_range f hwf 0 f.fileLen (Nat.zero_le _)]
    have := rangeRecsAux_all f.sync.length hwf.1 f.blocks f.headerLen
    rw [show f.headerLen + (f.blocks.map (blockSize f.sync.length)).sum = f.fileLen
      from rfl] at this
    exact this
  refine ⟨?_, hall⟩
  rw [flatMap_congr_mem (adjacentPairs (0 :: rest))
    (fun p => read_records f p.1 p.2)
    (fun p => rangeRecsAux f.sync.length p.1 p.2 f.headerLen f.blocks)
    (fun p hp => read_records_eq_range f hwf p.1 p.2
      (le_trans (chain_mem_le_lastOf rest 0 p.1 hchain (adjacentPairs_mem _ p hp).1)
        (le_of_eq hlast)))]
  rw [fold_ranges f.sync.length f.blocks f.headerLen rest 0 hchain, hlast,
    read_records_eq_range f hwf 0 f.fileLen (Nat.zero_le _)]

/-- Witness for C1: a two-block file with a 1-byte sync marker, split at
the mid-file cut 3 (inside no block: 3 is the second block's start). -/
theorem C1_split_coverage_witness :
    ((adjacentPairs (0 :: [3, 6])).flatMap fun p =>
        read_records ⟨[0], [1], [⟨[2], [10]⟩, ⟨[3], [11]⟩]⟩ p.1 p.2) =
        read_records ⟨[0], [1], [⟨[2], [10]⟩, ⟨[3], [11]⟩]⟩ 0
          (AvroFile.fileLen ⟨[0], [1], [⟨[2], [10]⟩, ⟨[3], [11]⟩]⟩) ∧
      read_records ⟨[0], [1], [⟨[2], [10]⟩, ⟨[3], [11]⟩]⟩ 0
          (AvroFile.fileLen ⟨[0], [1], [⟨[2], [10]⟩, ⟨[3], [11]⟩]⟩) =
        ([⟨[2], [10]⟩, ⟨[3], [11]⟩] : List AvroBlock).flatMap fun b => b.records :=
  C1_split_coverage ⟨[0], [1], [⟨[2], [10]⟩, ⟨[3], [11]⟩]⟩ [3, 6] (by decide)
    (List.chain'_cons.mpr ⟨by omega, List.chain'_cons.mpr ⟨by omega, List.chain'_singleton 6⟩⟩)
    rfl

/-- Beam atomic types (`schema_pb2.AtomicType`); `UNSPECIFIED` is the proto
default obtained when reading `atomic_type` off a `FieldType` whose oneof
is not `atomic_type`. -/
inductive AtomicType where
  | UNSPECIFIED
  | BOOLEAN
  | INT32
  | INT64
  | FLOAT
  | DOUBLE
  | BYTES
  | STRING
deriving DecidableEq

/-- Beam `schema_pb2.FieldType`, restricted to the shapes this module
produces and consumes: the `type_info` oneof plus the `nullable` flag on
atomic types (the only place the module reads or writes nullability).
`row` carries the row schema's `id` and fields; `logicalAny` is the opaque
logical type produced by `schemas.typing_to_runner_api(Any)`. -/
inductive FieldType where
  | atomic (t : AtomicType) (nullable : Bool)
  | array (elementType : FieldType)
  | iterable (elementType : FieldType)
  | map (keyType valueType : FieldType)
  | row (id : String) (fields : List (String × FieldType))
  | logicalAny

/-- A Beam `schema_pb2.Schema`: its id and named fields. -/
structure BeamSchema where
  id : String
  fields : List (String × FieldType)

/-- Avro schema documents in the shapes this module dispatches on: a bare
type-name string, a union given as a list, or a dict with a `type` key —
`{'type': name}` for primitive/fixed/enum/unknown names, array with
`items`, map with `values`, record with `name` and `fields`. -/
inductive AvroSchema where
  | sname (s : String)
  | aunion (members : List AvroSchema)
  | tdict (s : String)
  | aarray (items : AvroSchema)
  | amap (values : AvroSchema)
  | arecord (name : String) (fields : List (String × AvroSchema))

/-- `AVRO_PRIMITIVES_TO_BEAM_PRIMITIVES` (source order). -/
def AVRO_PRIMITIVES_TO_BEAM_PRIMITIVES : List (String × AtomicType) :=
  [("boolean", .BOOLEAN), ("int", .INT32), ("long", .INT64), ("float", .FLOAT),
    ("double", .DOUBLE), ("bytes", .BYTES), ("string", .STRING)]

/-- Lookup in `AVRO_PRIMITIVES_TO_BEAM_PRIMITIVES`. -/
def primLookup (s : String) : Option AtomicType :=
  AVRO_PRIMITIVES_TO_BEAM_PRIMITIVES.lookup s

/-- Lookup in `BEAM_PRIMITIVES_TO_AVRO_PRIMITIVES` (the inverted table). -/
def beamPrimName (t : AtomicType) : Option String :=
  (AVRO_PRIMITIVES_TO_BEAM_PRIMITIVES.find? (fun kv => decide (kv.2 = t))).map (·.1)

/-- `beam_type.atomic_type` with proto semantics: the default
`UNSPECIFIED` when the `type_info` oneof is not `atomic_type`. -/
def FieldType.atomic_type : FieldType → AtomicType
  | .atomic t _ => t
  | _ => .UNSPECIFIED

/-- `beam_type.row_type.schema` with proto semantics: the default empty
schema when the `type_info` oneof is not `row_type`. -/
def FieldType.row_type_schema : FieldType → BeamSchema
  | .row i fs => ⟨i, fs⟩
  | _ => ⟨"", []⟩

/-- The first union member found in the primitive table, walking members in
order exactly as the source's `for avro_type in union_type` loop does.
Testing `avro_type in AVRO_PRIMITIVES_TO_BEAM_PRIMITIVES` hashes the
member, so a member that is not a string (a list or a dict) raises
`TypeError: unhashable type` at that point. -/
def firstPrimMember : List AvroSchema → Except String (Option AtomicType)
  | [] => .ok none
  | .sname s :: rest =>
    match primLookup s with
    | some a => .ok (some a)
    | none => firstPrimMember rest
  | _ :: _ => .error "TypeError: unhashable type"

/-- `avro_union_type_to_beam_type(union_type)`.  `"null" in union_type` is
list membership by equality, matched only by a bare `"null"` string. -/
def avro_union_type_to_beam_type (u : List AvroSchema) : Except String FieldType :=
  if u.length = 2 ∧ u.any (fun memb =>
      match memb with
      | .sname s => s == "null"
      | _ => false) = true then
    match firstPrimMember u with
    | .error e => .error e
    | .ok (some a) => .ok (.atomic a true)
    | .ok none => .ok .logicalAny
  else .ok .logicalAny

/-- Shared handler for a bare type-name string and `{'type': name}`:
primitives map 1:1, `fixed` and `enum` become atomic strings, a structured
name without its payload key fails the key lookup, and any other name is
the `ValueError` branch. -/
def avroTypeNameToBeam (s : String) : Except String FieldType :=
  match primLookup s with
  | some a => .ok (.atomic a false)
  | none =>
    if s = "fixed" ∨ s = "enum" then .ok (.atomic .STRING false)
    else if s = "array" then .error "KeyError: items"
    else if s = "map" then .error "KeyError: values"
    else if s = "record" then .error "KeyError: fields"
    else .error "ValueError: Unable to convert to a Beam schema"

mutual

/-- `avro_type_to_beam_type(avro_type)`.  A bare string recurses as
`{'type': avro_type}` in the source; both paths share
`avroTypeNameToBeam`. -/
def avro_type_to_beam_type : AvroSchema → Except String FieldType
  | .sname s => avroTypeNameToBeam s
  | .aunion u => avro_union_type_to_beam_type u
  | .tdict s => avroTypeNameToBeam s
  | .aarray items => (avro_type_to_beam_type items).map .array
  | .amap values =>
    (avro_type_to_beam_type values).map (fun vt => .map (.atomic .STRING false) vt)
  | .arecord _ fields => (avroFieldsToBeam fields).map (fun fs => .row "" fs)

/-- The `schemas.schema_field(f['name'], avro_type_to_beam_type(f['type']))`
comprehension over a record's fields. -/
def avroFieldsToBeam : List (String × AvroSchema) → Except String (List (String × FieldType))
  | [] => .ok []
  | (n, t) :: rest => do
    let ft ← avro_type_to_beam_type t
    let fs ← avroFieldsToBeam rest
    .ok ((n, ft) :: fs)

end

/-- Whether the schema is a dict whose `type` is `record`
(`isinstance(avro_schema, dict) and avro_schema['type'] == 'record'`). -/
def isRecordDict : AvroSchema → Bool
  | .arecord _ _ => true
  | _ => false

/-- `avro_schema_to_beam_schema(avro_schema)`. -/
def avro_schema_to_beam_schema (s : AvroSchema) : Except String BeamSchema := do
  let beamType ← avro_type_to_beam_type s
  if isRecordDict s then .ok beamType.row_type_schema
  else .ok ⟨"", [("record", beamType)]⟩

mutual

/-- `beam_type_to_avro_type(beam_type)`. -/
def beam_type_to_avro_type : FieldType → Except String AvroSchema
  | .atomic t nullable =>
    match beamPrimName t with
    | none => .error "KeyError: atomic_type"
    | some p =>
      if nullable then .ok (.aunion [.sname "null", .sname p])
      else .ok (.tdict p)
  | .array e => (beam_type_to_avro_type e).map .aarray
  | .iterable e => (beam_type_to_avro_type e).map .aarray
  | .map k _ =>
    if k.atomic_type ≠ .STRING then
      .error "TypeError: Only strings allowd as map keys when converting to AVRO"
    else
      -- the source next evaluates `beam_type.map_type.element_type`, but
      -- `schema_pb2.MapType` has only `key_type` and `value_type`, so the
      -- attribute access raises before any schema is produced
      .error "AttributeError: element_type"
  | .row i fields => (beamFieldsToAvro fields).map (fun fs => .arecord i fs)
  | .logicalAny => .error "ValueError: Unconvertale type"

/-- The field comprehension of the `row_type` branch. -/
def beamFieldsToAvro : List (String × FieldType) → Except String (List (String × AvroSchema))
  | [] => .ok []
  | (n, t) :: rest => do
    let a ← beam_type_to_avro_type t
    let fs ← beamFieldsToAvro rest
    .ok ((n, a) :: fs)

end

/-- `beam_schema_to_avro_schema(beam_schema)`. -/
def beam_schema_to_avro_schema (bs : BeamSchema) : Except String AvroSchema :=
  beam_type_to_avro_type (.row bs.id bs.fields)

/-- Python runtime values crossing the value converters: `None`, ints,
strings, booleans, byte strings, lists, dicts with string keys (Avro
records and maps), and Beam `Row`s (fields read by name). -/
inductive Value where
  | vnone
  | vint (i : Int)
  | vstr (s : String)
  | vbool (b : Bool)
  | vbytes (bs : List Nat)
  | vlist (vs : List Value)
  | vdict (entries : List (String × Value))
  | vrow (entries : List (String × Value))

/-- `ctypes.c_uint32(value).value`: the integer reduced mod `2^32`
(a Python `bool` counts as its integer value); any other value raises. -/
def c_uint32 : Value → Except String Value
  | .vint i => .ok (.vint (i % (2 ^ 32 : Int)))
  | .vbool b => .ok (.vint (if b then 1 else 0))
  | _ => .error "TypeError: an integer is required"

/-- `ctypes.c_uint64(value).value`. -/
def c_uint64 : Value → Except String Value
  | .vint i => .ok (.vint (i % (2 ^ 64 : Int)))
  | .vbool b => .ok (.vint (if b then 1 else 0))
  | _ => .error "TypeError: an integer is required"

/-- `ctypes.c_int32(value).value`: reduce mod `2^32`, then reinterpret the
bit pattern as a signed (two's complement) 32-bit value. -/
def c_int32 : Value → Except String Value
  | .vint i =>
    .ok (.vint (if i % (2 ^ 32 : Int) < 2 ^ 31 then i % (2 ^ 32 : Int)
      else i % (2 ^ 32 : Int) - 2 ^ 32))
  | .vbool b => .ok (.vint (if b then 1 else 0))
  | _ => .error "TypeError: an integer is required"

/-- `ctypes.c_int64(value).value`. -/
def c_int64 : Value → Except String Value
  | .vint i =>
    .ok (.vint (if i % (2 ^ 64 : Int) < 2 ^ 63 then i % (2 ^ 64 : Int)
      else i % (2 ^ 64 : Int) - 2 ^ 64))
  | .vbool b => .ok (.vint (if b then 1 else 0))
  | _ => .error "TypeError: an integer is required"

/-- `avro_atomic_value_to_beam_atomic_value(avro_type, value)`: ints and
longs are reinterpreted as unsigned via ctypes, everything else passes
through unchanged. -/
def avro_atomic_value_to_beam_atomic_value (avro_type : String) (value : Value) :
    Except String Value :=
  if avro_type = "int" then c_uint32 value
  else if avro_type = "long" then c_uint64 value
  else .ok value

/-- `beam_atomic_value_to_avro_atomic_value(avro_type, value)`: the inverse
reinterpretation, back to signed. -/
def beam_atomic_value_to_avro_atomic_value (avro_type : String) (value : Value) :
    Except String Value :=
  if avro_type = "int" then c_int32 value
  else if avro_type = "long" then c_int64 value
  else .ok value

mutual

/-- `avro_value_to_beam_value(beam_type)`: builds the converter at
schema-setup time (outer `Except` = an exception raised during
construction, before any value is processed) and returns the per-value
function (inner `Except` = an exception raised while converting one
value). -/
def avro_value_to_beam_value : FieldType → Except String (Value → Except String Value)
  | .atomic t _ =>
    match beamPrimName t with
    | none => .error "KeyError: atomic_type"
    | some avroName => .ok (fun v => avro_atomic_value_to_beam_atomic_value avroName v)
  | .array e => do
    let c ← avro_value_to_beam_value e
    .ok (fun v =>
      match v with
      | .vlist vs => (vs.mapM c).map .vlist
      | _ => .error "TypeError: value is not iterable")
  | .iterable e => do
    let c ← avro_value_to_beam_value e
    .ok (fun v =>
      match v with
      | .vlist vs => (vs.mapM c).map .vlist
      | _ => .error "TypeError: value is not iterable")
  | .map k v =>
    if k.atomic_type ≠ .STRING then
      .error "TypeError: Only strings allowd as map keys when converting from AVRO"
    else do
      let c ← avro_value_to_beam_value v
      .ok (fun w =>
        match w with
        | .vdict es => (es.mapM (fun kv => (c kv.2).map (fun w2 => (kv.1, w2)))).map .vdict
        | _ => .error "AttributeError: items")
  | .row _ fields => do
    let cs ← avroValueFieldConverters fields
    .ok (fun w =>
      match w with
      | .vdict es =>
        (cs.mapM (fun (nc : String × (Value → Except String Value)) =>
          match es.lookup nc.1 with
          | some fv => (nc.2 fv).map (fun w2 => (nc.1, w2))
          | none => .error "KeyError: missing record field")).map .vrow
      | _ => .error "TypeError: value is not subscriptable")
  | .logicalAny => .ok (fun v => .ok v)

/-- The per-field converter dict of the `row_type` branch, in field
order. -/
def avroValueFieldConverters :
    List (String × FieldType) → Except String (List (String × (Value → Except String Value)))
  | [] => .ok []
  | (n, t) :: rest => do
    let c ← avro_value_to_beam_value t
    let cs ← avroValueFieldConverters rest
    .ok ((n, c) :: cs)

end

mutual

/-- `beam_value_to_avro_value(beam_type)`: the inverse converter builder,
same construction-time/per-value split. -/
def beam_value_to_avro_value : FieldType → Except String (Value → Except String Value)
  | .atomic t _ =>
    match beamPrimName t with
    | none => .error "KeyError: atomic_type"
    | some avroName => .ok (fun v => beam_atomic_value_to_avro_atomic_value avroName v)
  | .array e => do
    let c ← beam_value_to_avro_value e
    .ok (fun v =>
      match v with
      | .vlist vs => (vs.mapM c).map .vlist
      | _ => .error "TypeError: value is not iterable")
  | .iterable e => do
    let c ← beam_value_to_avro_value e
    .ok (fun v =>
      match v with
      | .vlist vs => (vs.mapM c).map .vlist
      | _ => .error "TypeError: value is not iterable")
  | .map k v =>
    if k.atomic_type ≠ .STRING then
      .error "TypeError: Only strings allowed as map keys when converting from AVRO"
    else do
      let c ← beam_value_to_avro_value v
      .ok (fun w =>
        match w with
        | .vdict es => (es.mapM (fun kv => (c kv.2).map (fun w2 => (kv.1, w2)))).map .vdict
        | _ => .error "AttributeError: items")
  | .row _ fields => do
    let cs ← beamValueFieldConverters fields
    .ok (fun w =>
      match w with
      | .vrow es =>
        (cs.mapM (fun (nc : String × (Value → Except String Value)) =>
          match es.lookup nc.1 with
          | some fv => (nc.2 fv).map (fun w2 => (nc.1, w2))
          | none => .error "AttributeError: missing row field")).map .vdict
      | _ => .error "AttributeError: value has no such attribute")
  | .logicalAny => .ok (fun v => .ok v)

/-- The per-field converter dict of the inverse `row_type` branch. -/
def beamValueFieldConverters :
    List (String × FieldType) → Except String (List (String × (Value → Except String Value)))
  | [] => .ok []
  | (n, t) :: rest => do
    let c ← beam_value_to_avro_value t
    let cs ← beamValueFieldConverters rest
    .ok ((n, c) :: cs)

end

/-- `avro_dict_to_beam_row(avro_schema, beam_schema)`.  For a bare
type-name string the source recurses via
`avro_dict_to_beam_row({'type': avro_schema})` with the required
`beam_schema` argument missing, so that call raises `TypeError` before
anything else happens.  For a union given as a list, `avro_schema['type']`
raises.  The `beam.typehints.with_output_types` wrapper does not change
the converter's behaviour and is modelled as the identity. -/
def avro_dict_to_beam_row (avro_schema : AvroSchema) (beam_schema : BeamSchema) :
    Except String (Value → Except String Value) :=
  match avro_schema with
  | .sname _ =>
    .error "TypeError: avro_dict_to_beam_row() missing 1 required positional argument"
  | .aunion _ => .error "TypeError: list indices must be integers or slices, not str"
  | .arecord _ _ => avro_value_to_beam_value (.row beam_schema.id beam_schema.fields)
  | .tdict s =>
    if s = "record" then avro_value_to_beam_value (.row beam_schema.id beam_schema.fields)
    else .ok (fun record => .ok (.vrow [("record", record)]))
  | _ => .ok (fun record => .ok (.vrow [("record", record)]))

/-- `beam_row_to_avro_dict(avro_schema, beam_schema)`.  A bare string
recurses as `{'type': avro_schema}` (both arguments passed this time).  In
the non-record branch the source calls `beam_value_to_avro_value(beam_schema)`,
handing the whole `Schema` message where a `FieldType` is expected;
`WhichOneof("type_info")` on a `Schema` raises `ValueError`, so that
branch always fails. -/
def beam_row_to_avro_dict (avro_schema : AvroSchema) (beam_schema : BeamSchema) :
    Except String (Value → Except String Value) :=
  match avro_schema with
  | .aunion _ => .error "TypeError: list indices must be integers or slices, not str"
  | .arecord _ _ => beam_value_to_avro_value (.row beam_schema.id beam_schema.fields)
  | .sname s =>
    if s = "record" then beam_value_to_avro_value (.row beam_schema.id beam_schema.fields)
    else .error "ValueError: Protocol message has no oneof type_info field"
  | .tdict s =>
    if s = "record" then beam_value_to_avro_value (.row beam_schema.id beam_schema.fields)
    else .error "ValueError: Protocol message has no oneof type_info field"
  | _ => .error "ValueError: Protocol message has no oneof type_info field"

/-- `WriteToAvro.expand(pcoll)`, modelled on its two inputs: the
constructor's `schema` argument (`none` = not supplied) and the Beam schema
inferred from the PCollection's element type (`none` = the element type is
not schema'd, so `schema_from_element_type` raises).  Returns the Avro
schema handed to the sink together with the per-record transformation that
`expand` applies to the input records before they reach the sink. -/
def WriteToAvro_expand (schema : Option AvroSchema) (elementSchema : Option BeamSchema) :
    Except String (AvroSchema × (Value → Except String Value)) :=
  match schema with
  | some s => .ok (s, fun v => .ok v)
  | none =>
    match elementSchema with
    | none => .error "ValueError: An explicit schema is required"
    | some bs => do
      let avroSchema ← beam_schema_to_avro_schema bs
      let convert ← beam_row_to_avro_dict avroSchema bs
      .ok (avroSchema, convert)

/-- C2: for every 32-bit two's-complement bit pattern (an Avro `int`,
`-2^31 ≤ i < 2^31`) and every 64-bit pattern (an Avro `long`), converting
with `avro_atomic_value_to_beam_atomic_value` yields the same bit pattern
read as an unsigned value (`0 ≤ u < 2^32`, resp. `2^64`), and converting
back with `beam_atomic_value_to_avro_atomic_value` of the same kind
returns exactly the original value; every other atomic kind passes values
through as the identity in both directions. -/
theorem C2_integer_sign_roundtrip :
    (∀ i : Int, -(2 ^ 31) ≤ i → i < 2 ^ 31 →
      ∃ u : Int, 0 ≤ u ∧ u < 2 ^ 32 ∧
        avro_atomic_value_to_beam_atomic_value "int" (.vint i) = .ok (.vint u) ∧
        beam_atomic_value_to_avro_atomic_value "int" (.vint u) = .ok (.vint i)) ∧
    (∀ i : Int, -(2 ^ 63) ≤ i → i < 2 ^ 63 →
      ∃ u : Int, 0 ≤ u ∧ u < 2 ^ 64 ∧
        avro_atomic_value_to_beam_atomic_value "long" (.vint i) = .ok (.vint u) ∧
        beam_atomic_value_to_avro_atomic_value "long" (.vint u) = .ok (.vint i)) ∧
    (∀ (t : String) (v : Value), t ≠ "int" → t ≠ "long" →
      avro_atomic_value_to_beam_atomic_value t v = .ok v ∧
      beam_atomic_value_to_avro_atomic_value t v = .ok v) := by
  refine ⟨fun i h1 h2 => ?_, fun i h1 h2 => ?_, fun t v h1 h2 => ?_⟩
  · refine ⟨i % (2 ^ 32 : Int), by omega, by omega, rfl, ?_⟩
    show c_int32 (.vint (i % (2 ^ 32 : Int))) = .ok (.vint i)
    rw [c_int32]
    split_ifs with hu <;>
      exact congrArg (fun z => (Except.ok (Value.vint z) : Except String Value)) (by omega)
  · refine ⟨i % (2 ^ 64 : Int), by omega, by omega, rfl, ?_⟩
    show c_int64 (.vint (i % (2 ^ 64 : Int))) = .ok (.vint i)
    rw [c_int64]
    split_ifs with hu <;>
      exact congrArg (fun z => (Except.ok (Value.vint z) : Except String Value)) (by omega)
  · constructor
    · rw [avro_atomic_value_to_beam_atomic_value, if_neg h1, if_neg h2]
    · rw [beam_atomic_value_to_avro_atomic_value, if_neg h1, if_neg h2]

/-- Witness for C2: the int pattern `-3`, the long pattern `-1`, and a
string value under the `string` kind. -/
theorem C2_integer_sign_roundtrip_witness :
    (∃ u : Int, 0 ≤ u ∧ u < 2 ^ 32 ∧
      avro_atomic_value_to_beam_atomic_value "int" (.vint (-3)) = .ok (.vint u) ∧
      beam_atomic_value_to_avro_atomic_value "int" (.vint u) = .ok (.vint (-3))) ∧
    (∃ u : Int, 0 ≤ u ∧ u < 2 ^ 64 ∧
      avro_atomic_value_to_beam_atomic_value "long" (.vint (-1)) = .ok (.vint u) ∧
      beam_atomic_value_to_avro_atomic_value "long" (.vint u) = .ok (.vint (-1))) ∧
    (avro_atomic_value_to_beam_atomic_value "string" (.vstr "x") = .ok (.vstr "x") ∧
      beam_atomic_value_to_avro_atomic_value "string" (.vstr "x") = .ok (.vstr "x")) :=
  ⟨C2_integer_sign_roundtrip.1 (-3) (by norm_num) (by norm_num),
    C2_integer_sign_roundtrip.2.1 (-1) (by norm_num) (by norm_num),
    C2_integer_sign_roundtrip.2.2 "string" (.vstr "x") (by decide) (by decide)⟩

/-- C3 evaluated at the failing input: a record schema with one string-keyed
map field converts to a Beam schema, but converting that Beam schema back
raises `AttributeError` because `beam_type_to_avro_type` reads the
nonexistent proto field `MapType.element_type` (the field is named
`value_type`), so the claimed round trip fails on any schema containing a
map. -/
theorem C3_map_roundtrip_attribute_error :
    (avro_schema_to_beam_schema
        (.arecord "r" [("m", .amap (.sname "int"))])).bind beam_schema_to_avro_schema =
      .error "AttributeError: element_type" := rfl

/-- C7 counterexample: a 2-element union containing `null` and the dict
member `{'type': 'int'}`.  The claim says every union shape either maps to
a nullable atomic or to the opaque Any type and that the function never
raises; here the membership test `avro_type in AVRO_PRIMITIVES_TO_BEAM_PRIMITIVES`
hashes the dict member and raises `TypeError` instead. -/
theorem C7_union_dict_member_raises :
    avro_union_type_to_beam_type [.sname "null", .tdict "int"] =
      .error "TypeError: unhashable type" := rfl

theorem firstPrimMember_ok_of_strings :
    ∀ (u : List AvroSchema), (∀ memb ∈ u, ∃ s, memb = AvroSchema.sname s) →
      ∃ o, firstPrimMember u = .ok o := by
  intro u
  induction u with
  | nil => intro _; exact ⟨none, rfl⟩
  | cons memb rest ih =>
    intro h
    obtain ⟨s, hs⟩ := h memb (List.mem_cons_self _ _)
    subst hs
    rw [firstPrimMember]
    match hp : primLookup s with
    | some a => exact ⟨some a, rfl⟩
    | none =>
      obtain ⟨o, ho⟩ := ih fun x hx => h x (List.mem_cons_of_mem _ hx)
      exact ⟨o, ho⟩

theorem firstPrimMember_none_of_unmapped :
    ∀ (u : List AvroSchema), (∀ memb ∈ u, ∃ s, memb = AvroSchema.sname s) →
      (∀ s, AvroSchema.sname s ∈ u → primLookup s = none) →
      firstPrimMember u = .ok none := by
  intro u
  induction u with
  | nil => intro _ _; rfl
  | cons memb rest ih =>
    intro h1 h2
    obtain ⟨s, hs⟩ := h1 memb (List.mem_cons_self _ _)
    subst hs
    rw [firstPrimMember, h2 s (List.mem_cons_self _ _)]
    exact ih (fun x hx => h1 x (List.mem_cons_of_mem _ hx))
      (fun x hx => h2 x (List.mem_cons_of_mem _ hx))

/-- C7 as amended: restricted to unions all of whose members are given as
plain name strings, `avro_union_type_to_beam_type` never raises; a
2-element union of `"null"` and a mapped primitive yields the nullable
atomic of that primitive regardless of member order; and every other
shape — wrong length, no `"null"` member, or no member with a 1:1
mapping — yields the opaque Any logical type.  (As stated the claim is
false: a non-string member of a 2-element null union makes the hash-based
membership test raise, see the counterexample.) -/
theorem C7_union_shape (u : List AvroSchema)
    (hstr : ∀ memb ∈ u, ∃ s, memb = AvroSchema.sname s) :
    (∃ t, avro_union_type_to_beam_type u = .ok t) ∧
    (∀ p a, primLookup p = some a →
      (u = [.sname "null", .sname p] ∨ u = [.sname p, .sname "null"]) →
      avro_union_type_to_beam_type u = .ok (.atomic a true)) ∧
    ((u.length ≠ 2 ∨ (AvroSchema.sname "null") ∉ u ∨
        (∀ s, AvroSchema.sname s ∈ u → primLookup s = none)) →
      avro_union_type_to_beam_type u = .ok .logicalAny) := by
  refine ⟨?_, ?_, ?_⟩
  · rw [avro_union_type_to_beam_type]
    split
    · obtain ⟨o, ho⟩ := firstPrimMember_ok_of_strings u hstr
      rw [ho]
      cases o with
      | some a => exact ⟨.atomic a true, rfl⟩
      | none => exact ⟨.logicalAny, rfl⟩
    · exact ⟨.logicalAny, rfl⟩
  · intro p a hpa hor
    rcases hor with he | he <;> subst he
    · rw [avro_union_type_to_beam_type,
        if_pos ⟨rfl, by simp [List.any_cons, List.any_nil]⟩]
      have h1 : firstPrimMember [AvroSchema.sname "null", .sname p] =
          firstPrimMember [AvroSchema.sname p] := rfl
      rw [h1]
      simp only [firstPrimMember, hpa]
    · rw [avro_union_type_to_beam_type,
        if_pos ⟨rfl, by simp [List.any_cons, List.any_nil]⟩]
      simp only [firstPrimMember, hpa]
  · intro hother
    by_cases hc : u.length = 2 ∧ u.any (fun memb =>
        match memb with
        | .sname s => s == "null"
        | _ => false) = true
    · rcases hother with h | h | h
      · exact absurd hc.1 h
      · exfalso
        obtain ⟨memb, hmem, hfn⟩ := List.any_eq_true.mp hc.2
        obtain ⟨s, hs⟩ := hstr memb hmem
        subst hs
        simp only [beq_iff_eq] at hfn
        exact h (hfn ▸ hmem)
      · rw [avro_union_type_to_beam_type, if_pos hc,
          firstPrimMember_none_of_unmapped u hstr h]
    · rw [avro_union_type_to_beam_type, if_neg hc]

/-- Witness for C7 (amended): the union `["null", "int"]` maps to a
nullable atomic int32. -/
theorem C7_union_shape_witness :
    avro_union_type_to_beam_type [.sname "null", .sname "int"] =
      .ok (.atomic .INT32 true) :=
  (C7_union_shape [.sname "null", .sname "int"]
      (fun memb hm => by
        rcases List.mem_cons.mp hm with h | h
        · exact ⟨"null", h⟩
        · exact ⟨"int", List.mem_singleton.mp h⟩)).2.1
    "int" .INT32 rfl (Or.inl rfl)

/-- C8: building a value converter over a map type whose key type is not
atomic string fails with a `TypeError` at converter-construction time, in
both directions, before any value is processed — the construction returns
an error and no converter (hence no partial output) is produced. -/
theorem C8_map_key_construction_error (k v : FieldType)
    (h : k.atomic_type ≠ .STRING) :
    avro_value_to_beam_value (.map k v) =
      .error "TypeError: Only strings allowd as map keys when converting from AVRO" ∧
    beam_value_to_avro_value (.map k v) =
      .error "TypeError: Only strings allowed as map keys when converting from AVRO" := by
  constructor
  · rw [avro_value_to_beam_value, if_pos h]
  · rw [beam_value_to_avro_value, if_pos h]

/-- Witness for C8: an int32-keyed map of strings. -/
theorem C8_map_key_construction_error_witness :
    avro_value_to_beam_value (.map (.atomic .INT32 false) (.atomic .STRING false)) =
      .error "TypeError: Only strings allowd as map keys when converting from AVRO" ∧
    beam_value_to_avro_value (.map (.atomic .INT32 false) (.atomic .STRING false)) =
      .error "TypeError: Only strings allowed as map keys when converting from AVRO" :=
  C8_map_key_construction_error (.atomic .INT32 false) (.atomic .STRING false) (by decide)

/-- C9 evaluated at the failing inputs.  The claim says a top-level
non-record schema — including a bare primitive-name string — is uniformly
wrapped as a single-field row.  Instead: `avro_dict_to_beam_row` on the
bare string `"int"` raises `TypeError` (its recursive self-call omits the
required `beam_schema` argument), and `beam_row_to_avro_dict` on any
non-record schema raises `ValueError` (it passes the `Schema` message to
`beam_value_to_avro_value`, which expects a `FieldType` and queries the
nonexistent oneof `type_info`). -/
theorem C9_scalar_wrap_raises :
    avro_dict_to_beam_row (.sname "int") ⟨"", [("record", .atomic .INT32 false)]⟩ =
      .error "TypeError: avro_dict_to_beam_row() missing 1 required positional argument" ∧
    beam_row_to_avro_dict (.tdict "int") ⟨"", [("record", .atomic .INT32 false)]⟩ =
      .error "ValueError: Protocol message has no oneof type_info field" :=
  ⟨rfl, rfl⟩

/-- C10: when `WriteToAvro` is constructed with an explicit schema,
`expand` hands that schema to the sink and passes the records through
completely unchanged (the per-record transformation is the identity — in
particular no `beam_row_to_avro_dict` and no unsigned-to-signed integer
reinterpretation happens on that path); only when the schema is inferred
from the PCollection's element type does `expand` route the records
through the `beam_row_to_avro_dict` converter. -/
theorem C10_explicit_schema_passthrough :
    (∀ (s : AvroSchema) (es : Option BeamSchema),
      WriteToAvro_expand (some s) es = .ok (s, fun v => .ok v)) ∧
    (∀ (bs : BeamSchema) (a : AvroSchema), beam_schema_to_avro_schema bs = .ok a →
      WriteToAvro_expand none (some bs) =
        (beam_row_to_avro_dict a bs).map (fun c => (a, c))) := by
  constructor
  · intro s es; rfl
  · intro bs a h
    show (do
      let avroSchema ← beam_schema_to_avro_schema bs
      let convert ← beam_row_to_avro_dict avroSchema bs
      (.ok (avroSchema, convert) : Except String _)) =
        (beam_row_to_avro_dict a bs).map (fun c => (a, c))
    rw [h]
    show (beam_row_to_avro_dict a bs).bind (fun c => .ok (a, c)) = _
    cases beam_row_to_avro_dict a bs <;> rfl

/-- Witness for C10: an explicit schema passes records through unchanged;
without one, the inferred one-field int64 schema routes records through
the converter. -/
theorem C10_explicit_schema_passthrough_witness :
    WriteToAvro_expand (some (.sname "int")) none =
      .ok (.sname "int", fun v => .ok v) ∧
    WriteToAvro_expand none (some ⟨"X", [("a", .atomic .INT64 false)]⟩) =
      (beam_row_to_avro_dict (.arecord "X" [("a", .tdict "long")])
          ⟨"X", [("a", .atomic .INT64 false)]⟩).map
        (fun c => (.arecord "X" [("a", .tdict "long")], c)) :=
  ⟨C10_explicit_schema_passthrough.1 (.sname "int") none,
    C10_explicit_schema_passthrough.2 ⟨"X", [("a", .atomic .INT64 false)]⟩
      (.arecord "X" [("a", .tdict "long")]) rfl⟩

end Avroio
